import Mathlib

/-!
# Verification of the ThethaCore configuration parser

A shallow embedding of `src/parser.rs` (repository `thethacore/thethac`)
together with proofs about the behaviour claimed by the specification.

Modelling conventions:

* Rust strings are modelled as `List Char` (`Str` below).  All tokens the
  parser manipulates are ASCII in the places the claims exercise; the
  ASCII cores of the Unicode classes used by `str::trim`, regex `\s` and
  regex `\w` are spelled out explicitly.
* The three regexes of the source are replaced by equivalent explicit
  character scans; the equivalence argument is recorded next to each
  definition.
* A Rust panic (the out-of-bounds byte slice `s[1..0]` that the string
  branch performs on the one-character token `"`) is modelled by the
  distinguished outcome `PFail.panicked`, which propagates through every
  caller exactly like an unwinding panic.
* `HashMap` is modelled as an insertion-ordered association list with
  overwriting insert.  No claim observes an ordering that `HashMap`
  would not determine.
* `f64` parsing: the classification (which tokens `f64::from_str`
  accepts) is modelled exactly; the numeric payload records the exact
  decimal rational denoted by a finite literal (IEEE-754 rounding and
  the non-finite `inf`/`infinity`/`nan` payloads are abstracted — no
  claim observes a payload on which this differs).
-/

namespace Thethac

/-- Rust `&str`, modelled as a list of characters. -/
abbrev Str := List Char

/-- ASCII core of the whitespace class used by `str::trim` and regex `\s`. -/
def isWS (c : Char) : Bool :=
  c == ' ' || c == '\t' || c == '\n' || c == '\r' || c == '\x0b' || c == '\x0c'

/-- ASCII core of the regex word class `\w` (letters, digits, underscore). -/
def isWordChar (c : Char) : Bool :=
  c.isAlpha || c.isDigit || c == '_'

/-- `str::trim`: remove whitespace from both ends. -/
def trim (l : Str) : Str :=
  ((l.dropWhile isWS).reverse.dropWhile isWS).reverse

/-- `str::split(c)`: `n` occurrences of the separator yield `n + 1`
pieces (pieces may be empty). -/
def splitOnChar (c : Char) : Str → List Str
  | [] => [[]]
  | x :: xs =>
    if x = c then [] :: splitOnChar c xs
    else
      match splitOnChar c xs with
      | [] => [[x]]
      | p :: ps => (x :: p) :: ps

/-- `str::split("==")`: left-to-right, non-overlapping matches of the
two-character separator. -/
def splitEqEq : Str → List Str
  | [] => [[]]
  | '=' :: '=' :: rest => [] :: splitEqEq rest
  | x :: xs =>
    match splitEqEq xs with
    | [] => [[x]]
    | p :: ps => (x :: p) :: ps

/-- Value of a string of ASCII digits, most significant first. -/
def digitsToNat (ds : Str) : Nat :=
  ds.foldl (fun a c => a * 10 + (c.toNat - '0'.toNat)) 0

/-- `i64::from_str` digit part: one or more ASCII digits whose signed
value fits in 64-bit two's complement. -/
def parseI64Digits (sgn : Int) (ds : Str) : Option Int :=
  if ds ≠ [] ∧ ds.all Char.isDigit = true then
    let v : Int := sgn * digitsToNat ds
    if -(2 ^ 63) ≤ v ∧ v ≤ 2 ^ 63 - 1 then some v else none
  else none

/-- `value_str.parse::<i64>()`: optional `+`/`-` sign, then digits,
rejecting overflow. -/
def parseI64 (s : Str) : Option Int :=
  match s with
  | '+' :: r => parseI64Digits 1 r
  | '-' :: r => parseI64Digits (-1) r
  | r => parseI64Digits 1 r

/-- Strip one optional leading sign (shared by the `f64` grammar). -/
def stripSign : Str → Str
  | '+' :: r => r
  | '-' :: r => r
  | r => r

def lowerStr (s : Str) : Str := s.map Char.toLower

/-- Everything up to the first exponent marker belongs to the mantissa. -/
def notExpChar (c : Char) : Bool := !(c == 'e' || c == 'E')

/-- Mantissa shapes accepted by `f64::from_str`:
`Digit+`, `Digit+ '.' Digit*`, `Digit* '.' Digit+`. -/
def isMantissa (m : Str) : Bool :=
  if m.contains '.' then
    let ip := m.takeWhile (fun c => !(c == '.'))
    let fr := (m.dropWhile (fun c => !(c == '.'))).drop 1
    ip.all Char.isDigit && fr.all Char.isDigit && (!ip.isEmpty || !fr.isEmpty)
  else
    !m.isEmpty && m.all Char.isDigit

/-- Exponent part: absent, or the marker followed by an optionally
signed nonempty digit string. -/
def isExpPart : Str → Bool
  | [] => true
  | _ :: er =>
    let ed := stripSign er
    !ed.isEmpty && ed.all Char.isDigit

/-- The token grammar accepted by `f64::from_str` (`value_str.parse::<f64>()`):
an optional sign, then `inf`, `infinity` or `nan` (case-insensitive) or a
decimal number with optional fraction and exponent.  Acceptance never
depends on the magnitude (overflow rounds to infinity rather than
failing). -/
def isF64 (s : Str) : Bool :=
  let b := stripSign s
  lowerStr b == "inf".data || lowerStr b == "infinity".data ||
    lowerStr b == "nan".data ||
    (isMantissa (b.takeWhile notExpChar) && isExpPart (b.dropWhile notExpChar))

def f64sign (s : Str) : ℚ :=
  match s with
  | '-' :: _ => -1
  | _ => 1

/-- Signed value of the exponent part (0 when absent). -/
def expVal : Str → Int
  | [] => 0
  | _ :: er =>
    match er with
    | '+' :: d => (digitsToNat d : Int)
    | '-' :: d => -(digitsToNat d : Int)
    | d => (digitsToNat d : Int)

/-- Exact rational denoted by a finite decimal `f64` literal (see the
module comment for the abstraction of rounding and non-finite forms). -/
def f64ratOf (s : Str) : ℚ :=
  let b := stripSign s
  let m := b.takeWhile notExpChar
  let ip := m.takeWhile (fun c => !(c == '.'))
  let fr := if m.contains '.' then (m.dropWhile (fun c => !(c == '.'))).drop 1 else []
  f64sign s * ((digitsToNat (ip ++ fr) : ℚ) / (10 : ℚ) ^ fr.length) *
    (10 : ℚ) ^ expVal (b.dropWhile notExpChar)

/-- A typed configuration value (`enum Value` of the source).  `Object`
entries model `HashMap<String, Value>` as an insertion-ordered
association list. -/
inductive Value where
  | String (s : Str)
  | Integer (n : Int)
  | Float (q : ℚ)
  | Boolean (b : Bool)
  | Null
  | Array (items : List Value)
  | Object (entries : List (Str × Value))

/-- The parse errors produced by the source, one constructor per format
string (messages are presentation-only; the constructors carry the data
interpolated into them). -/
inductive PErr where
  /-- "Syntax error on line {}: '{}'" (line 96). -/
  | syntaxLine (line : Nat) (text : Str)
  /-- "Error on line {}: Key-value pair found outside of a section" (line 80). -/
  | outsideSection (line : Nat)
  /-- "Error on line {}: Section '{}' not initialized" (line 89). -/
  | sectionNotInit (line : Nat) (path : Str)
  /-- "Syntax error on line {}: Unable to parse value '{}'" (line 174). -/
  | valueErr (line : Nat) (text : Str)
  /-- "Syntax error on line {}: Invalid object pair '{}'" (line 157). -/
  | objectPairErr (line : Nat) (pairText : Str)
deriving DecidableEq

/-- Failure of a run of the parser: either a returned `Err` or a Rust
panic (which no caller of this code catches). -/
inductive PFail where
  | panicked
  | error (e : PErr)
deriving DecidableEq

/-- Association-list lookup (model of `HashMap::get`). -/
def lookupA {β : Type} : List (Str × β) → Str → Option β
  | [], _ => none
  | (k', v) :: rest, k => if k' = k then some v else lookupA rest k

/-- Association-list insert with overwrite (model of `HashMap::insert`). -/
def insertA {β : Type} : List (Str × β) → Str → β → List (Str × β)
  | [], k, v => [(k, v)]
  | (k', v') :: rest, k, v =>
    if k' = k then (k, v) :: rest else (k', v') :: insertA rest k v

/-- Model of `map.entry(k).or_insert(d)`: keep an existing binding,
otherwise add `(k, d)`. -/
def entryOr {β : Type} (m : List (Str × β)) (k : Str) (d : β) : List (Str × β) :=
  match lookupA m k with
  | some _ => m
  | none => m ++ [(k, d)]

abbrev ObjMap := List (Str × Value)

/-- Interior capture of `^<([^>]+)>$` on the trimmed line: the line is a
single `<`, a nonempty interior containing no `>`, and a single closing
`>`.  (`[^>]` does match `<` and newline, hence no further condition.) -/
def sectionCapture (t : Str) : Option Str :=
  let inner := (t.drop 1).dropLast
  if t.head? == some '<' && t.getLast? == some '>' &&
      !inner.isEmpty && !inner.contains '>' then
    some inner
  else none

/-- Captures of `^(\w+)\s*==\s*(.+)$` on the trimmed line.  Greedy
matching admits only the maximal word-character run as capture 1 (a
shorter run is followed by a word character, which neither `\s*` nor
`==` matches), then the maximal whitespace runs around the literal
`==`; capture 2 is the nonempty remainder.  The lines this is applied
to are trimmed and contain no newline, so `.` and end-of-haystack
subtleties of the regex do not arise. -/
def kvCapture (t : Str) : Option (Str × Str) :=
  let key := t.takeWhile isWordChar
  if key.isEmpty then none
  else
    match (t.dropWhile isWordChar).dropWhile isWS with
    | '=' :: '=' :: r3 =>
      let r4 := r3.dropWhile isWS
      if r4.isEmpty then none else some (key, r4)
    | _ => none

/-- Interior capture of `^\[(.*)\]$` resp. `^\{(.*)\}$`: first and last
characters are the brackets and the (possibly empty) interior contains
no newline (regex `.` does not match `\n`). -/
def bracketCapture (o c : Char) (t : Str) : Option Str :=
  let inner := (t.drop 1).dropLast
  if t.head? == some o && t.getLast? == some c && !inner.contains '\n' then
    some inner
  else none

/-- Key normalisation in the object branch: strip one pair of
surrounding double quotes.  Rust slices bytes `1..len-1`, which panics
when the key is the single character `"` (start 1 > end 0). -/
def stripKey (k : Str) : Option Str :=
  if k.head? == some '"' && k.getLast? == some '"' then
    if 2 ≤ k.length then some ((k.drop 1).dropLast) else none
  else some k

/-- `iter().map(f).collect::<Result<Vec<_>, _>>()`: first failure wins. -/
def mapE (f : Str → Except PFail Value) : List Str → Except PFail (List Value)
  | [] => .ok []
  | p :: rest =>
    match f p with
    | .error e => .error e
    | .ok v =>
      match mapE f rest with
      | .error e => .error e
      | .ok vs => .ok (v :: vs)

/-- The `for pair in content.split(',')` loop of the object branch:
left-to-right accumulation, first failure wins. -/
def foldPairs (f : ObjMap → Str → Except PFail ObjMap) :
    ObjMap → List Str → Except PFail ObjMap
  | acc, [] => .ok acc
  | acc, p :: rest =>
    match f acc p with
    | .error e => .error e
    | .ok acc' => foldPairs f acc' rest

/-- `parse_value` from `src/parser.rs` (lines 105-178), with a structural
fuel argument.  Every recursive call of the source is on a strictly
shorter token (a trimmed piece of the bracket interior), so the fuel
used by the wrapper `parse_value` below strictly exceeds the recursion
depth and the fuel-exhaustion branch is unreachable from it; that
branch is mapped to the panic outcome. -/
def parseV : Nat → Str → Nat → Except PFail Value
  | 0, _, _ => .error .panicked
  | fuel + 1, s, ln =>
    -- 1. `^(True|False|Null)$`, then an exact match on the same token.
    if s = "True".data then .ok (.Boolean true)
    else if s = "False".data then .ok (.Boolean false)
    else if s = "Null".data then .ok .Null
    -- 2. starts_with('"') && ends_with('"'); Rust then slices bytes
    --    `1..len-1`, panicking on the single character `"`.
    else if s.head? == some '"' && s.getLast? == some '"' then
      if 2 ≤ s.length then .ok (.String ((s.drop 1).dropLast))
      else .error .panicked
    -- 3. `value_str.parse::<i64>()`
    else
      match parseI64 s with
      | some n => .ok (.Integer n)
      | none =>
        -- 4. `value_str.parse::<f64>()`
        if isF64 s then .ok (.Float (f64ratOf s))
        else
          -- 5. `^\[(.*)\]$`
          match bracketCapture '[' ']' s with
          | some inner =>
            if (trim inner).isEmpty then .ok (.Array [])
            else
              match mapE (fun p => parseV fuel (trim p) ln) (splitOnChar ',' inner) with
              | .error e => .error e
              | .ok items => .ok (.Array items)
          | none =>
            -- 6. `^\{(.*)\}$`
            match bracketCapture '{' '}' s with
            | some content =>
              if (trim content).isEmpty then .ok (.Object [])
              else
                match foldPairs
                    (fun acc p =>
                      match (splitEqEq p).map trim with
                      | [k0, v0] =>
                        match stripKey k0 with
                        | none => .error .panicked
                        | some key =>
                          match parseV fuel v0 ln with
                          | .error e => .error e
                          | .ok v => .ok (insertA acc key v)
                      | _ => .error (.error (.objectPairErr ln p)))
                    [] (splitOnChar ',' content) with
                | .error e => .error e
                | .ok entries => .ok (.Object entries)
            | none => .error (.error (.valueErr ln s))

/-- `parse_value(value_str, line_num)`.  The token shrinks at every
recursive call, so `s.length + 1` units of fuel can never run out. -/
def parse_value (s : Str) (ln : Nat) : Except PFail Value :=
  parseV (s.length + 1) s ln

/-- The transient cursor state of one `parse` invocation: the document
built so far and `current_sections`. -/
structure St where
  sections : List (Str × List (Str × Value))
  current : List Str

def initSt : St := ⟨[], []⟩

/-- `current_sections.join("/")` (`Vec::join`). -/
def joinSlash : List Str → Str
  | [] => []
  | [x] => x
  | x :: xs => x ++ '/' :: joinSlash xs

/-- One iteration of the `for (line_num, line) in input.lines().enumerate()`
loop of `parse` (lines 48-98); `i` is the 0-based line index. -/
def step (i : Nat) (line : Str) (st : St) : Except PFail St :=
  let t := trim line
  if t = [] ∨ t.head? = some '#' ∨ t.take 2 = "//".data then .ok st
  else
    match sectionCapture t with
    | some interior =>
      let segs := (splitOnChar '<' interior).map trim
      let key := joinSlash segs
      .ok ⟨entryOr st.sections key [], segs⟩
    | none =>
      match kvCapture t with
      | some kv =>
        match parse_value (trim kv.2) (i + 1) with
        | .error e => .error e
        | .ok v =>
          if st.current = [] then .error (.error (.outsideSection (i + 1)))
          else
            let key := joinSlash st.current
            match lookupA st.sections key with
            | some m => .ok ⟨insertA st.sections key (insertA m kv.1 v), st.current⟩
            | none => .error (.error (.sectionNotInit (i + 1) key))
      | none => .error (.error (.syntaxLine (i + 1) t))

/-- The whole loop of `parse`, starting at line index `i`. -/
def runLines : Nat → List Str → St → Except PFail St
  | _, [], st => .ok st
  | i, l :: ls, st =>
    match step i l st with
    | .error e => .error e
    | .ok st' => runLines (i + 1) ls st'

/-- Strip one trailing `\r` (the `\r\n` handling of `str::lines`). -/
def stripCR (l : Str) : Str :=
  if l.getLast? = some '\r' then l.dropLast else l

/-- Worker for `str::lines`: `acc` is the current line, reversed. -/
def ruGo (acc : Str) : Str → List Str
  | [] => [acc.reverse]
  | c :: rest =>
    if c = '\n' then
      stripCR acc.reverse :: (if rest.isEmpty then [] else ruGo [] rest)
    else ruGo (c :: acc) rest

/-- `str::lines`: split at `\n`, dropping a final empty line and one
`\r` before each split point. -/
def ruLines (s : Str) : List Str :=
  if s.isEmpty then [] else ruGo [] s

/-- `struct ThethaCoreConfig`: section path ↦ key ↦ value. -/
structure ThethaCoreConfig where
  sections : List (Str × List (Str × Value))

/-- `ThethaCoreConfig::parse` (lines 39-101). -/
def parse (input : String) : Except PFail ThethaCoreConfig :=
  match runLines 0 (ruLines input.data) initSt with
  | .error e => .error e
  | .ok st => .ok ⟨st.sections⟩

/-- The loop invariant of `parse`: whenever `current_sections` is
nonempty, its `/`-joined path is a key of the sections map. -/
def Inv (st : St) : Prop :=
  st.current ≠ [] → lookupA st.sections (joinSlash st.current) ≠ none

/-- A failure that is not the "Section not initialized" error. -/
def NotSecInit (e : PFail) : Prop :=
  ∀ n p, e ≠ .error (.sectionNotInit n p)

/-- Lines that the parser skips without touching any state. -/
def IgnorableLine (l : Str) : Prop :=
  trim l = [] ∨ (trim l).head? = some '#' ∨ (trim l).take 2 = "//".data

/-! ### Association-list lemmas -/

lemma lookupA_insertA_self {β : Type} (m : List (Str × β)) (k : Str) (v : β) :
    lookupA (insertA m k v) k = some v := by
  induction m with
  | nil => simp [insertA, lookupA]
  | cons kv rest ih =>
    obtain ⟨k', v'⟩ := kv
    by_cases h : k' = k
    · subst h; simp [insertA, lookupA]
    · simp [insertA, lookupA, h, ih]

lemma lookupA_append_self {β : Type} {m : List (Str × β)} {k : Str} (d : β)
    (h : lookupA m k = none) : lookupA (m ++ [(k, d)]) k = some d := by
  induction m with
  | nil => simp [lookupA]
  | cons kv rest ih =>
    obtain ⟨k', v'⟩ := kv
    by_cases hk : k' = k
    · subst hk; simp [lookupA] at h
    · simp only [lookupA, if_neg hk] at h
      simpa [lookupA, hk] using ih h

lemma entryOr_of_none {β : Type} {m : List (Str × β)} {k : Str} (d : β)
    (h : lookupA m k = none) : entryOr m k d = m ++ [(k, d)] := by
  unfold entryOr; rw [h]

lemma entryOr_of_some {β : Type} {m : List (Str × β)} {k : Str} {x : β} (d : β)
    (h : lookupA m k = some x) : entryOr m k d = m := by
  unfold entryOr; rw [h]

lemma lookupA_entryOr_self {β : Type} (m : List (Str × β)) (k : Str) (d : β) :
    lookupA (entryOr m k d) k ≠ none := by
  unfold entryOr
  cases h : lookupA m k with
  | some v => simp [h]
  | none => simp [lookupA_append_self d h]

/-! ### Loop decomposition -/

lemma runLines_append (a b : List Str) :
    ∀ (i : Nat) (st : St),
      runLines i (a ++ b) st =
        match runLines i a st with
        | .error e => .error e
        | .ok st' => runLines (i + a.length) b st' := by
  induction a with
  | nil => intro i st; simp [runLines]
  | cons l a' ih =>
    intro i st
    have hl : runLines i ((l :: a') ++ b) st
        = match step i l st with
          | .error e => .error e
          | .ok st' => runLines (i + 1) (a' ++ b) st' := rfl
    have hr : runLines i (l :: a') st
        = match step i l st with
          | .error e => .error e
          | .ok st' => runLines (i + 1) a' st' := rfl
    rw [hl, hr]
    cases h : step i l st with
    | error e => rfl
    | ok st' =>
      show runLines (i + 1) (a' ++ b) st' = _
      rw [ih (i + 1) st']
      have harith : i + 1 + a'.length = i + (l :: a').length := by
        simp only [List.length_cons]; omega
      rw [harith]

/-! ### Line-shape lemmas -/

lemma kvCapture_head {t : Str} {kv : Str × Str} (h : kvCapture t = some kv) :
    ∃ c r, t = c :: r ∧ isWordChar c = true := by
  cases t with
  | nil => simp [kvCapture] at h
  | cons c r =>
    refine ⟨c, r, rfl, ?_⟩
    by_cases hc : isWordChar c
    · exact hc
    · exfalso
      have hnone : kvCapture (c :: r) = none := by
        simp only [kvCapture, List.takeWhile_cons]
        simp [hc]
      rw [hnone] at h; cases h

lemma sectionCapture_head {t x : Str} (h : sectionCapture t = some x) :
    t.head? = some '<' := by
  simp only [sectionCapture] at h
  split at h
  next hcond =>
    simp only [Bool.and_eq_true, beq_iff_eq] at hcond
    exact hcond.1.1.1
  next => cases h

lemma sectionCapture_none {t : Str} (h : t.head? ≠ some '<') :
    sectionCapture t = none := by
  have hb : (t.head? == some '<') = false := by
    simpa using h
  unfold sectionCapture
  simp [hb]

lemma step_ignorable {l : Str} (h : IgnorableLine l) (i : Nat) (st : St) :
    step i l st = .ok st := by
  unfold IgnorableLine at h
  simp only [step]
  rw [if_pos h]

lemma runLines_ignorable {pre : List Str} (h : ∀ p ∈ pre, IgnorableLine p) :
    ∀ (i : Nat) (st : St), runLines i pre st = .ok st := by
  induction pre with
  | nil => intro i st; rfl
  | cons p rest ih =>
    intro i st
    have hstep : step i p st = .ok st := step_ignorable (h p (by simp)) i st
    show (match step i p st with
          | Except.error e => Except.error e
          | Except.ok st' => runLines (i + 1) rest st') = Except.ok st
    rw [hstep]
    exact ih (fun q hq => h q (by simp [hq])) (i + 1) st

lemma step_section {l interior : Str} (h : sectionCapture (trim l) = some interior)
    (i : Nat) (st : St) :
    step i l st =
      .ok ⟨entryOr st.sections (joinSlash ((splitOnChar '<' interior).map trim)) [],
           (splitOnChar '<' interior).map trim⟩ := by
  have hh := sectionCapture_head h
  obtain ⟨r, hr⟩ : ∃ r, trim l = '<' :: r := by
    cases ht : trim l with
    | nil => rw [ht] at hh; cases hh
    | cons c r =>
      rw [ht] at hh
      simp only [List.head?] at hh
      exact ⟨r, by rw [(Option.some.injEq _ _).mp hh]⟩
  have hne : ¬(trim l = [] ∨ (trim l).head? = some '#' ∨ (trim l).take 2 = "//".data) := by
    rw [hr]; simp
  simp only [step]
  rw [if_neg hne, h]

lemma step_kv {l : Str} {kv : Str × Str} (h : kvCapture (trim l) = some kv)
    (i : Nat) (st : St) :
    step i l st =
      match parse_value (trim kv.2) (i + 1) with
      | .error e => .error e
      | .ok v =>
        if st.current = [] then .error (.error (.outsideSection (i + 1)))
        else
          match lookupA st.sections (joinSlash st.current) with
          | some m =>
            .ok ⟨insertA st.sections (joinSlash st.current) (insertA m kv.1 v), st.current⟩
          | none => .error (.error (.sectionNotInit (i + 1) (joinSlash st.current))) := by
  obtain ⟨c, r, ht, hc⟩ := kvCapture_head h
  have h1 : c ≠ '#' := by rintro rfl; exact absurd hc (by decide)
  have h2 : c ≠ '/' := by rintro rfl; exact absurd hc (by decide)
  have h3 : c ≠ '<' := by rintro rfl; exact absurd hc (by decide)
  have hne : ¬(trim l = [] ∨ (trim l).head? = some '#' ∨ (trim l).take 2 = "//".data) := by
    rw [ht]; simp [h1, h2]
  have hsec : sectionCapture (trim l) = none := by
    apply sectionCapture_none
    rw [ht]; simp [h3]
  simp only [step]
  rw [if_neg hne, hsec, h]

/-! ### The value decoder never produces the unresolved-section error -/

lemma mapE_notSecInit {f : Str → Except PFail Value}
    (hf : ∀ p e, f p = .error e → NotSecInit e) :
    ∀ (ls : List Str) (e : PFail), mapE f ls = .error e → NotSecInit e := by
  intro ls
  induction ls with
  | nil => intro e h; cases h
  | cons p rest ih =>
    intro e h
    simp only [mapE] at h
    cases hp : f p with
    | error e' =>
      simp only [hp] at h
      injection h with h2; subst h2
      exact hf p _ hp
    | ok v =>
      simp only [hp] at h
      cases hrest : mapE f rest with
      | error e' =>
        simp only [hrest] at h
        injection h with h2; subst h2
        exact ih _ hrest
      | ok vs => simp only [hrest] at h; cases h

lemma foldPairs_notSecInit {f : ObjMap → Str → Except PFail ObjMap}
    (hf : ∀ acc p e, f acc p = .error e → NotSecInit e) :
    ∀ (ls : List Str) (acc : ObjMap) (e : PFail),
      foldPairs f acc ls = .error e → NotSecInit e := by
  intro ls
  induction ls with
  | nil => intro acc e h; cases h
  | cons p rest ih =>
    intro acc e h
    simp only [foldPairs] at h
    cases hp : f acc p with
    | error e' =>
      simp only [hp] at h
      injection h with h2; subst h2
      exact hf acc p _ hp
    | ok acc' =>
      simp only [hp] at h
      exact ih acc' e h

lemma parseV_notSecInit :
    ∀ (fuel : Nat) (s : Str) (ln : Nat) (e : PFail),
      parseV fuel s ln = .error e → NotSecInit e := by
  intro fuel
  induction fuel with
  | zero =>
    intro s ln e h
    simp only [parseV] at h
    injection h with h2; subst h2
    intro n p hne; simp at hne
  | succ fuel ih =>
    intro s ln e h
    simp only [parseV] at h
    split at h
    · cases h
    split at h
    · cases h
    split at h
    · cases h
    split at h
    · split at h
      · cases h
      · injection h with h2; subst h2
        intro n p hne; simp at hne
    split at h
    · cases h
    split at h
    · cases h
    split at h
    · split at h
      · cases h
      · split at h
        next e' hmap =>
          injection h with h2; subst h2
          exact mapE_notSecInit (fun p e2 hp => ih (trim p) ln e2 hp) _ _ hmap
        next items hmap => cases h
    split at h
    · split at h
      · cases h
      · split at h
        next e' hfold =>
          injection h with h2; subst h2
          refine foldPairs_notSecInit ?_ _ _ _ hfold
          intro acc p e2 hg
          split at hg
          next k0 v0 heq =>
            split at hg
            · injection hg with h3; subst h3
              intro n q hne; simp at hne
            next key hkey =>
              cases hv : parseV fuel v0 ln with
              | error e3 =>
                simp only [hv] at hg
                injection hg with h3; subst h3
                exact ih v0 ln e3 hv
              | ok v => simp only [hv] at hg; cases hg
          next heq => injection hg with h3; subst h3
                      intro n q hne; simp at hne
        next entries hfold => cases h
    · injection h with h2; subst h2
      intro n p hne; simp at hne

lemma parse_value_notSecInit {s : Str} {ln : Nat} {e : PFail}
    (h : parse_value s ln = .error e) : NotSecInit e :=
  parseV_notSecInit _ s ln e h

/-! ### Invariant preservation and error shape of the loop -/

lemma step_Inv_pres {i : Nat} {l : Str} {st st' : St} (hInv : Inv st)
    (h : step i l st = .ok st') : Inv st' := by
  by_cases hig : IgnorableLine l
  · rw [step_ignorable hig] at h
    injection h with h2; subst h2; exact hInv
  · cases hsec : sectionCapture (trim l) with
    | some interior =>
      rw [step_section hsec] at h
      injection h with h2; subst h2
      intro _
      exact lookupA_entryOr_self _ _ _
    | none =>
      cases hkv : kvCapture (trim l) with
      | some kv =>
        rw [step_kv hkv] at h
        cases hv : parse_value (trim kv.2) (i + 1) with
        | error e => simp only [hv] at h; cases h
        | ok v =>
          simp only [hv] at h
          by_cases hcur : st.current = []
          · rw [if_pos hcur] at h; cases h
          · rw [if_neg hcur] at h
            cases hlk : lookupA st.sections (joinSlash st.current) with
            | some m =>
              simp only [hlk] at h
              injection h with h2; subst h2
              intro _
              simp [lookupA_insertA_self]
            | none => simp only [hlk] at h; cases h
      | none =>
        have hs : step i l st = .error (.error (.syntaxLine (i + 1) (trim l))) := by
          unfold IgnorableLine at hig
          simp only [step]
          rw [if_neg hig, hsec, hkv]
        rw [hs] at h; cases h

lemma step_notSecInit {i : Nat} {l : Str} {st : St} {e : PFail} (hInv : Inv st)
    (h : step i l st = .error e) : NotSecInit e := by
  by_cases hig : IgnorableLine l
  · rw [step_ignorable hig] at h; cases h
  · cases hsec : sectionCapture (trim l) with
    | some interior => rw [step_section hsec] at h; cases h
    | none =>
      cases hkv : kvCapture (trim l) with
      | some kv =>
        rw [step_kv hkv] at h
        cases hv : parse_value (trim kv.2) (i + 1) with
        | error e' =>
          simp only [hv] at h
          injection h with h2; subst h2
          exact parse_value_notSecInit hv
        | ok v =>
          simp only [hv] at h
          by_cases hcur : st.current = []
          · rw [if_pos hcur] at h
            injection h with h2; subst h2
            intro n p hne; simp at hne
          · rw [if_neg hcur] at h
            cases hlk : lookupA st.sections (joinSlash st.current) with
            | some m => simp only [hlk] at h; cases h
            | none => exact absurd hlk (hInv hcur)
      | none =>
        have hs : step i l st = .error (.error (.syntaxLine (i + 1) (trim l))) := by
          unfold IgnorableLine at hig
          simp only [step]
          rw [if_neg hig, hsec, hkv]
        rw [hs] at h
        injection h with h2; subst h2
        intro n p hne; simp at hne

lemma runLines_notSecInit :
    ∀ (ls : List Str) (i : Nat) (st : St), Inv st →
      ∀ (e : PFail), runLines i ls st = .error e → NotSecInit e := by
  intro ls
  induction ls with
  | nil => intro i st _ e h; cases h
  | cons l rest ih =>
    intro i st hInv e h
    simp only [runLines] at h
    cases hstep : step i l st with
    | error e' =>
      simp only [hstep] at h
      injection h with h2; subst h2
      exact step_notSecInit hInv hstep
    | ok st' =>
      simp only [hstep] at h
      exact ih (i + 1) st' (step_Inv_pres hInv hstep) e h

/-! ### Adequacy of the fuel: recursion tokens shrink, so any fuel
exceeding the token length computes the same decoder result -/

lemma length_trim_le (l : Str) : (trim l).length ≤ l.length := by
  unfold trim
  calc ((l.dropWhile isWS).reverse.dropWhile isWS).reverse.length
      = ((l.dropWhile isWS).reverse.dropWhile isWS).length := List.length_reverse _
    _ ≤ (l.dropWhile isWS).reverse.length := (List.dropWhile_sublist _).length_le
    _ = (l.dropWhile isWS).length := List.length_reverse _
    _ ≤ l.length := (List.dropWhile_sublist _).length_le

lemma mem_splitOnChar_length {c : Char} :
    ∀ {l p : Str}, p ∈ splitOnChar c l → p.length ≤ l.length := by
  intro l
  induction l with
  | nil =>
    intro p hp
    simp only [splitOnChar, List.mem_singleton] at hp
    subst hp; simp
  | cons x xs ih =>
    intro p hp
    simp only [splitOnChar] at hp
    by_cases hx : x = c
    · rw [if_pos hx] at hp
      rcases List.mem_cons.mp hp with rfl | hp'
      · simp
      · exact le_trans (ih hp') (by simp)
    · rw [if_neg hx] at hp
      cases hsp : splitOnChar c xs with
      | nil =>
        rw [hsp] at hp
        rcases List.mem_cons.mp hp with rfl | hp'
        · simp
        · cases hp'
      | cons q qs =>
        rw [hsp] at hp
        rcases List.mem_cons.mp hp with rfl | hp'
        · have hq : q ∈ splitOnChar c xs := by
            rw [hsp]; exact List.mem_cons_self q qs
          have := ih hq
          simp only [List.length_cons]
          omega
        · have hq : p ∈ splitOnChar c xs := by
            rw [hsp]; exact List.mem_cons_of_mem q hp'
          exact le_trans (ih hq) (by simp)

lemma mem_splitEqEq_length :
    ∀ {l p : Str}, p ∈ splitEqEq l → p.length ≤ l.length := by
  intro l
  induction l using splitEqEq.induct with
  | case1 =>
    intro p hp
    simp only [splitEqEq, List.mem_singleton] at hp
    subst hp; simp
  | case2 rest ih =>
    intro p hp
    simp only [splitEqEq] at hp
    rcases List.mem_cons.mp hp with rfl | hp'
    · simp
    · have := ih hp'
      simp only [List.length_cons]
      omega
  | case3 x xs hne hnil ih =>
    intro p hp
    simp only [splitEqEq, hnil] at hp
    rw [List.mem_singleton.mp hp]; simp
  | case4 x xs hne q qs hcons ih =>
    intro p hp
    simp only [splitEqEq, hcons] at hp
    rcases List.mem_cons.mp hp with rfl | hp'
    · have hq : q ∈ splitEqEq xs := by
        rw [hcons]; exact List.mem_cons_self q qs
      have := ih hq
      simp only [List.length_cons]
      omega
    · have hq : p ∈ splitEqEq xs := by
        rw [hcons]; exact List.mem_cons_of_mem q hp'
      exact le_trans (ih hq) (by simp)

lemma bracketCapture_shape {o c : Char} (hoc : o ≠ c) {t inner : Str}
    (h : bracketCapture o c t = some inner) :
    inner = (t.drop 1).dropLast ∧ 2 ≤ t.length := by
  simp only [bracketCapture] at h
  split at h
  next hcond =>
    injection h with h2
    refine ⟨h2.symm, ?_⟩
    simp only [Bool.and_eq_true, beq_iff_eq] at hcond
    cases t with
    | nil => exact absurd hcond.1.1 (by simp)
    | cons x ts =>
      cases ts with
      | nil =>
        exfalso
        have hx1 : x = o := by simpa using hcond.1.1
        have hx2 : x = c := by simpa [List.getLast?] using hcond.1.2
        exact hoc (hx1 ▸ hx2 ▸ rfl)
      | cons y ts' => simp
  next => cases h

lemma inner_length {t : Str} : ((t.drop 1).dropLast).length = t.length - 2 := by
  simp only [List.length_dropLast, List.length_drop]
  omega

lemma mapE_congr {f g : Str → Except PFail Value} :
    ∀ {ls : List Str}, (∀ p ∈ ls, f p = g p) → mapE f ls = mapE g ls := by
  intro ls
  induction ls with
  | nil => intro _; rfl
  | cons p rest ih =>
    intro h
    simp only [mapE]
    rw [h p (by simp), ih (fun q hq => h q (by simp [hq]))]

lemma foldPairs_congr {f g : ObjMap → Str → Except PFail ObjMap} :
    ∀ {ls : List Str}, (∀ acc p, p ∈ ls → f acc p = g acc p) →
      ∀ acc, foldPairs f acc ls = foldPairs g acc ls := by
  intro ls
  induction ls with
  | nil => intro _ acc; rfl
  | cons p rest ih =>
    intro h acc
    simp only [foldPairs]
    rw [h acc p (by simp)]
    cases g acc p with
    | error e => rfl
    | ok acc' => exact ih (fun a q hq => h a q (by simp [hq])) acc'

/-- Fuel irrelevance: any two fuels strictly above the token length give
the same decoder result, so `parse_value` (fuel `s.length + 1`) is the
total function computed by the source's recursion. -/
lemma parseV_fuel_irrel :
    ∀ (f1 f2 : Nat) (s : Str) (ln : Nat), s.length < f1 → s.length < f2 →
      parseV f1 s ln = parseV f2 s ln := by
  intro f1
  induction f1 using Nat.strong_induction_on with
  | _ f1 ih =>
  intro f2 s ln h1 h2
  cases f1 with
  | zero => omega
  | succ a =>
  cases f2 with
  | zero => omega
  | succ b =>
  simp only [parseV]
  split
  · rfl
  split
  · rfl
  split
  · rfl
  split
  · rfl
  split
  · rfl
  split
  · rfl
  split
  next inner harr =>
    have hshape := bracketCapture_shape (by decide) harr
    have hinner : inner.length = s.length - 2 := by
      rw [hshape.1]; exact inner_length
    have hbound : ∀ p ∈ splitOnChar ',' inner, (trim p).length < a ∧ (trim p).length < b := by
      intro p hp
      have hpl := mem_splitOnChar_length hp
      have htl := length_trim_le p
      have h2s := hshape.2
      constructor <;> omega
    split
    · rfl
    · have hmap : mapE (fun p => parseV a (trim p) ln) (splitOnChar ',' inner)
          = mapE (fun p => parseV b (trim p) ln) (splitOnChar ',' inner) := by
        refine mapE_congr ?_
        intro p hp
        exact ih a (by omega) b (trim p) ln (hbound p hp).1 (hbound p hp).2
      rw [hmap]
  next harr =>
  split
  next content hobj =>
    have hshape := bracketCapture_shape (by decide) hobj
    have hinner : content.length = s.length - 2 := by
      rw [hshape.1]; exact inner_length
    split
    · rfl
    · have hfold : ∀ acc p, p ∈ splitOnChar ',' content →
          (match (splitEqEq p).map trim with
           | [k0, v0] =>
             match stripKey k0 with
             | none => (.error .panicked : Except PFail ObjMap)
             | some key =>
               match parseV a v0 ln with
               | .error e => .error e
               | .ok v => .ok (insertA acc key v)
           | _ => .error (.error (.objectPairErr ln p)))
          = (match (splitEqEq p).map trim with
             | [k0, v0] =>
               match stripKey k0 with
               | none => (.error .panicked : Except PFail ObjMap)
               | some key =>
                 match parseV b v0 ln with
                 | .error e => .error e
                 | .ok v => .ok (insertA acc key v)
             | _ => .error (.error (.objectPairErr ln p))) := by
        intro acc p hp
        split
        next k0 v0 hkv =>
          have hv0 : v0 ∈ (splitEqEq p).map trim := by rw [hkv]; simp
          obtain ⟨q, hq, hqe⟩ := List.mem_map.mp hv0
          have hql := mem_splitEqEq_length hq
          have hpl := mem_splitOnChar_length hp
          have htl := length_trim_le q
          have h2s := hshape.2
          have hV : parseV a v0 ln = parseV b v0 ln := by
            refine ih a (by omega) b v0 ln ?_ ?_ <;> (rw [← hqe]; omega)
          rw [hV]
        next hkv => rfl
      rw [foldPairs_congr hfold []]
  next hobj => rfl

/-- Any sufficient fuel computes exactly `parse_value`. -/
lemma parseV_eq_parse_value {fuel : Nat} {s : Str} (ln : Nat)
    (h : s.length < fuel) : parseV fuel s ln = parse_value s ln :=
  parseV_fuel_irrel fuel (s.length + 1) s ln h (Nat.lt_succ_self _)

/-! ### Shape analysis of the value decoder -/

/-- Every successful decode comes from one of the seven classification
branches; in particular `Boolean`/`Null` results arise only from the
exact literals `True`, `False`, `Null`. -/
lemma parse_value_ok_cases {s : Str} {ln : Nat} {v : Value}
    (h : parse_value s ln = .ok v) :
    (s = "True".data ∧ v = .Boolean true) ∨
    (s = "False".data ∧ v = .Boolean false) ∨
    (s = "Null".data ∧ v = .Null) ∨
    (∃ x, v = .String x) ∨ (∃ n, v = .Integer n) ∨ (∃ q, v = .Float q) ∨
    (∃ items, v = .Array items) ∨ (∃ entries, v = .Object entries) := by
  unfold parse_value at h
  simp only [parseV] at h
  split at h
  next hT => injection h with h2; exact Or.inl ⟨hT, h2.symm⟩
  next hT =>
  split at h
  next hF => injection h with h2; exact Or.inr (Or.inl ⟨hF, h2.symm⟩)
  next hF =>
  split at h
  next hN => injection h with h2; exact Or.inr (Or.inr (Or.inl ⟨hN, h2.symm⟩))
  next hN =>
  split at h
  next hq =>
    split at h
    · injection h with h2
      exact Or.inr (Or.inr (Or.inr (Or.inl ⟨_, h2.symm⟩)))
    · cases h
  next hq =>
  split at h
  next n hI =>
    injection h with h2
    exact Or.inr (Or.inr (Or.inr (Or.inr (Or.inl ⟨n, h2.symm⟩))))
  next hI =>
  split at h
  next hFl => injection h with h2; exact Or.inr (Or.inr (Or.inr (Or.inr (Or.inr (Or.inl ⟨_, h2.symm⟩)))))
  next hFl =>
  split at h
  next inner harr =>
    split at h
    · injection h with h2
      exact Or.inr (Or.inr (Or.inr (Or.inr (Or.inr (Or.inr (Or.inl ⟨[], h2.symm⟩))))))
    · split at h
      next e hmap => cases h
      next items hmap =>
        injection h with h2
        exact Or.inr (Or.inr (Or.inr (Or.inr (Or.inr (Or.inr (Or.inl ⟨items, h2.symm⟩))))))
  next harr =>
  split at h
  next content hobj =>
    split at h
    · injection h with h2
      exact Or.inr (Or.inr (Or.inr (Or.inr (Or.inr (Or.inr (Or.inr ⟨[], h2.symm⟩))))))
    · split at h
      next e hfold => cases h
      next entries hfold =>
        injection h with h2
        exact Or.inr (Or.inr (Or.inr (Or.inr (Or.inr (Or.inr (Or.inr ⟨entries, h2.symm⟩))))))
  next hobj => cases h

lemma parseI64_head {s : Str} {n : Int} (h : parseI64 s = some n) :
    ∃ c r, s = c :: r ∧ (c = '+' ∨ c = '-' ∨ c.isDigit = true) := by
  cases s with
  | nil => simp [parseI64, parseI64Digits] at h
  | cons c r =>
    unfold parseI64 at h
    split at h
    next r' heq =>
      injection heq with hc hr
      exact ⟨c, r, rfl, Or.inl hc⟩
    next r' heq =>
      injection heq with hc hr
      exact ⟨c, r, rfl, Or.inr (Or.inl hc)⟩
    next heq h1 h2 =>
      refine ⟨c, r, rfl, Or.inr (Or.inr ?_)⟩
      unfold parseI64Digits at h
      split at h
      next hcond =>
        have := hcond.2
        simp only [List.all_cons, Bool.and_eq_true] at this
        exact this.1
      next => cases h

/-- A token accepted by `i64::from_str` reaches and takes the integer
branch: none of the earlier branches can claim it. -/
lemma parse_value_integer {s : Str} {ln : Nat} {n : Int} (h : parseI64 s = some n) :
    parse_value s ln = .ok (.Integer n) := by
  have hT : s ≠ "True".data := by
    rintro rfl
    rw [(by decide : parseI64 "True".data = (none : Option Int))] at h; cases h
  have hF : s ≠ "False".data := by
    rintro rfl
    rw [(by decide : parseI64 "False".data = (none : Option Int))] at h; cases h
  have hN : s ≠ "Null".data := by
    rintro rfl
    rw [(by decide : parseI64 "Null".data = (none : Option Int))] at h; cases h
  have hq : (s.head? == some '"' && s.getLast? == some '"') = false := by
    obtain ⟨c, r, rfl, hc⟩ := parseI64_head h
    have hcq : c ≠ '"' := by
      rcases hc with rfl | rfl | hd
      · decide
      · decide
      · intro hcq; rw [hcq] at hd; exact absurd hd (by decide)
    simp [hcq]
  unfold parse_value
  simp only [parseV]
  rw [if_neg hT, if_neg hF, if_neg hN, if_neg (by simp [hq]), h]

/-- The exact rational value the decoder attaches to the token `42.0`. -/
lemma f64ratOf_forty_two : f64ratOf "42.0".data = 42 := by
  have h : f64ratOf "42.0".data = 1 * (((420 : Nat) : ℚ) / 10 ^ (1 : Nat)) * 10 ^ (0 : Int) := rfl
  rw [h]; norm_num

/-! ### Claims -/

/-- C1: the claim says a section header with angle-bracket nesting, e.g.
the trimmed line `<database<advanced>>`, is recognized and canonicalized
to the path `database/advanced`.  The code's regex `^<([^>]+)>$` rejects
any interior containing `>`, so the doubled-`>` header is a syntax
error (contradicting the repository's own `test_nested_sections`),
while the split-on-`<`/join-with-`/` canonicalization is reachable only
through the single-`>` spelling `<database<advanced>`. -/
theorem C1_nested_header_rejected :
    sectionCapture "<database<advanced>>".data = none ∧
    parse "<database<advanced>>\npool_size == 10"
      = .error (.error (.syntaxLine 1 "<database<advanced>>".data)) ∧
    parse "<database<advanced>\npool_size == 10"
      = .ok ⟨[("database/advanced".data, [("pool_size".data, .Integer 10)])]⟩ :=
  ⟨rfl, rfl, rfl⟩

/-- C2 counterexample: decoding `[1, 2, [3, 4]]` does not succeed — the
naive comma split cuts the nested brackets into the fragments `[3` and
`4]`, and the first of them is a decode error. -/
theorem C2_nested_array_counterexample :
    parse_value "[1, 2, [3, 4]]".data 1 = .error (.error (.valueErr 1 "[3".data)) := rfl

/-- C2 amended: `[1, 2, [3, 4]]` fails with a decode error on the
fragment `[3`; a nested array whose interior contains no comma, e.g.
`[1, 2, [34]]`, does decode to a 3-element array whose third element is
the nested 1-element array. -/
theorem C2_nested_array_amended :
    parse_value "[1, 2, [3, 4]]".data 7 = .error (.error (.valueErr 7 "[3".data)) ∧
    parse_value "[1, 2, [34]]".data 7
      = .ok (.Array [.Integer 1, .Integer 2, .Array [.Integer 34]]) :=
  ⟨rfl, rfl⟩

/-- C3 (code bug): the decoder is not total.  On the one-character token
`"` the quoted-string branch applies (`starts_with` and `ends_with` are
both true) and the byte slice `1..0` panics, so neither a `Value` nor a
decode error is returned; for tokens of length ≥ 2 the branch behaves
as specified. -/
theorem C3_quote_token_panics :
    parse_value "\"".data 1 = .error .panicked ∧
    parse_value "\"\"".data 1 = .ok (.String []) ∧
    parse "<s>\nk == \"" = .error .panicked :=
  ⟨rfl, rfl, rfl⟩

/-- C4 counterexample: a key/value line outside any section whose value
token is undecodable reports the decode error, not the key-outside-
section error, because the code decodes the value before checking
`current_sections`. -/
theorem C4_outside_section_counterexample :
    parse "x == @@@" = .error (.error (.valueErr 1 "@@@".data)) ∧
    parse "x == @@@" ≠ .error (.error (.outsideSection 1)) := by
  refine ⟨rfl, ?_⟩
  intro h
  have h2 := (show parse "x == @@@"
      = Except.error (.error (.valueErr 1 "@@@".data)) from rfl).symm.trans h
  injection h2 with h3
  injection h3 with h4
  cases h4

/-- C4 amended: a key/value line with no section header above it fails
with the key-outside-section error at that line's 1-based number,
provided its value token decodes successfully (an undecodable token
reports the decode error instead, since decoding happens first). -/
theorem C4_outside_section_amended :
    ∀ (pre : List Str) (l : Str) (rest : List Str) (kv : Str × Str) (v : Value),
      (∀ p ∈ pre, IgnorableLine p) →
      kvCapture (trim l) = some kv →
      parse_value (trim kv.2) (pre.length + 1) = .ok v →
      runLines 0 (pre ++ l :: rest) initSt
        = .error (.error (.outsideSection (pre.length + 1))) ∧
      ∀ input : String, ruLines input.data = pre ++ l :: rest →
        parse input = .error (.error (.outsideSection (pre.length + 1))) := by
  intro pre l rest kv v hpre hkv hv
  have hrun : runLines 0 (pre ++ l :: rest) initSt
      = .error (.error (.outsideSection (pre.length + 1))) := by
    rw [runLines_append, runLines_ignorable hpre 0 initSt]
    show runLines (0 + pre.length) (l :: rest) initSt = _
    rw [Nat.zero_add]
    simp only [runLines]
    rw [step_kv hkv]
    simp only [hv]
    rw [if_pos (show initSt.current = [] from rfl)]
  exact ⟨hrun, fun input hin => by unfold parse; rw [hin, hrun]⟩

theorem C4_outside_section_amended_witness :
    runLines 0 ([] ++ "x == 1".data :: []) initSt
      = .error (.error (.outsideSection 1)) ∧
    parse "x == 1" = .error (.error (.outsideSection 1)) := by
  have h := C4_outside_section_amended [] "x == 1".data [] ("x".data, "1".data)
    (.Integer 1) (by intro p hp; cases hp) (by rfl) (by rfl)
  exact ⟨h.1, h.2 "x == 1" (by rfl)⟩

/-- C5: the loop invariant — a nonempty `current_sections` always has
its joined path present in the sections map — is preserved by every
step, and consequently no parse of any input can return the
"Section not initialized" error. -/
theorem C5_section_invariant :
    (∀ (i : Nat) (l : Str) (st st' : St), Inv st → step i l st = .ok st' → Inv st') ∧
    (∀ (input : String) (n : Nat) (p : Str),
      parse input ≠ .error (.error (.sectionNotInit n p))) := by
  refine ⟨fun i l st st' hI h => step_Inv_pres hI h, ?_⟩
  intro input n p hcontra
  unfold parse at hcontra
  cases hrun : runLines 0 (ruLines input.data) initSt with
  | ok st => simp only [hrun] at hcontra; cases hcontra
  | error e =>
    simp only [hrun] at hcontra
    injection hcontra with h2
    have hinv : Inv initSt := fun hc => absurd rfl hc
    exact runLines_notSecInit _ 0 initSt hinv e hrun n p h2

theorem C5_section_invariant_witness :
    Inv ⟨[("a".data, [])], ["a".data]⟩ ∧
    parse "x" ≠ .error (.error (.sectionNotInit 1 [])) :=
  ⟨C5_section_invariant.1 0 "<a>".data initSt ⟨[("a".data, [])], ["a".data]⟩
      (fun hc => absurd rfl hc) (by rfl),
   C5_section_invariant.2 "x" 1 []⟩

/-- C6: parsing is all-or-nothing — the result is a single `ok`
document or a single error, and an error on a prefix of the line list
is the result of the whole parse, so no data from earlier valid lines
is ever exposed. -/
theorem C6_all_or_nothing :
    (∀ input : String, (∃ cfg, parse input = .ok cfg) ∨ (∃ e, parse input = .error e)) ∧
    (∀ (a b : List Str) (e : PFail),
      runLines 0 a initSt = .error e →
      runLines 0 (a ++ b) initSt = .error e ∧
      ∀ input : String, ruLines input.data = a ++ b → parse input = .error e) := by
  constructor
  · intro input
    cases h : parse input with
    | ok cfg => exact Or.inl ⟨cfg, rfl⟩
    | error e => exact Or.inr ⟨e, rfl⟩
  · intro a b e h
    have hext : runLines 0 (a ++ b) initSt = .error e := by
      rw [runLines_append, h]
    exact ⟨hext, fun input hin => by unfold parse; rw [hin, hext]⟩

theorem C6_all_or_nothing_witness :
    runLines 0 (["x == 1".data] ++ ["<a>".data]) initSt
      = .error (.error (.outsideSection 1)) ∧
    parse "x == 1\n<a>" = .error (.error (.outsideSection 1)) := by
  have h := C6_all_or_nothing.2 ["x == 1".data] ["<a>".data]
    (.error (.outsideSection 1)) (by rfl)
  exact ⟨h.1, h.2 "x == 1\n<a>" (by rfl)⟩

/-- C7: the decoder maps exactly the case-sensitive tokens `True`,
`False`, `Null` to `Boolean true`, `Boolean false`, `Null`, and no
other token produces those values; the token `true` falls through every
branch to the decode-error path. -/
theorem C7_literal_classification :
    ∀ (s : Str) (ln : Nat),
      (parse_value s ln = .ok (.Boolean true) ↔ s = "True".data) ∧
      (parse_value s ln = .ok (.Boolean false) ↔ s = "False".data) ∧
      (parse_value s ln = .ok .Null ↔ s = "Null".data) ∧
      parse_value "true".data ln = .error (.error (.valueErr ln "true".data)) := by
  intro s ln
  refine ⟨⟨?_, ?_⟩, ⟨?_, ?_⟩, ⟨?_, ?_⟩, rfl⟩
  · intro h
    rcases parse_value_ok_cases h with ⟨h1, _⟩ | ⟨_, h2⟩ | ⟨_, h2⟩ | ⟨x, hx⟩ |
      ⟨n, hx⟩ | ⟨q, hx⟩ | ⟨it, hx⟩ | ⟨en, hx⟩
    · exact h1
    · cases h2
    · cases h2
    · cases hx
    · cases hx
    · cases hx
    · cases hx
    · cases hx
  · rintro rfl; rfl
  · intro h
    rcases parse_value_ok_cases h with ⟨_, h2⟩ | ⟨h1, _⟩ | ⟨_, h2⟩ | ⟨x, hx⟩ |
      ⟨n, hx⟩ | ⟨q, hx⟩ | ⟨it, hx⟩ | ⟨en, hx⟩
    · cases h2
    · exact h1
    · cases h2
    · cases hx
    · cases hx
    · cases hx
    · cases hx
    · cases hx
  · rintro rfl; rfl
  · intro h
    rcases parse_value_ok_cases h with ⟨_, h2⟩ | ⟨_, h2⟩ | ⟨h1, _⟩ | ⟨x, hx⟩ |
      ⟨n, hx⟩ | ⟨q, hx⟩ | ⟨it, hx⟩ | ⟨en, hx⟩
    · cases h2
    · cases h2
    · exact h1
    · cases hx
    · cases hx
    · cases hx
    · cases hx
    · cases hx
  · rintro rfl; rfl

/-- C8: a token accepted by signed 64-bit integer parsing decodes to
`Integer` (the decimal-point/exponent forms are not accepted by it and
fall through to `Float`); concretely `42` decodes to `Integer 42`,
`42.0` to the float 42, `-7` to `Integer (-7)`, and `42x` is a decode
error. -/
theorem C8_numeric_disambiguation :
    (∀ (s : Str) (ln : Nat) (n : Int), parseI64 s = some n →
      parse_value s ln = .ok (.Integer n)) ∧
    (∀ ln, parse_value "42".data ln = .ok (.Integer 42)) ∧
    (∀ ln, parse_value "42.0".data ln = .ok (.Float 42)) ∧
    (∀ ln, parse_value "-7".data ln = .ok (.Integer (-7))) ∧
    (∀ ln, parse_value "42x".data ln = .error (.error (.valueErr ln "42x".data))) := by
  refine ⟨fun s ln n h => parse_value_integer h, fun ln => rfl, fun ln => ?_,
    fun ln => rfl, fun ln => rfl⟩
  have h2 : parse_value "42.0".data ln = .ok (.Float (f64ratOf "42.0".data)) := rfl
  rw [h2, f64ratOf_forty_two]

theorem C8_numeric_disambiguation_witness :
    parse_value "7".data 3 = .ok (.Integer 7) :=
  C8_numeric_disambiguation.1 "7".data 3 7 (by decide)

/-- C9: a section header creates an empty map for its path on first
opening and leaves the map untouched on reopening (`entry().or_insert`),
and a document that reopens a section merges later keys into the same
map. -/
theorem C9_section_reopen_idempotent :
    (∀ (i : Nat) (l : Str) (st : St) (interior : Str),
      sectionCapture (trim l) = some interior →
      step i l st
        = .ok ⟨entryOr st.sections (joinSlash ((splitOnChar '<' interior).map trim)) [],
               (splitOnChar '<' interior).map trim⟩ ∧
      (lookupA st.sections (joinSlash ((splitOnChar '<' interior).map trim)) = none →
        entryOr st.sections (joinSlash ((splitOnChar '<' interior).map trim)) []
          = st.sections ++ [(joinSlash ((splitOnChar '<' interior).map trim), [])]) ∧
      (∀ m, lookupA st.sections (joinSlash ((splitOnChar '<' interior).map trim)) = some m →
        entryOr st.sections (joinSlash ((splitOnChar '<' interior).map trim)) []
          = st.sections)) ∧
    parse "<a>\nx == 1\n<a>\ny == 2"
      = .ok ⟨[("a".data, [("x".data, .Integer 1), ("y".data, .Integer 2)])]⟩ := by
  refine ⟨?_, rfl⟩
  intro i l st interior h
  exact ⟨step_section h i st, fun hnone => entryOr_of_none _ hnone,
    fun m hsome => entryOr_of_some _ hsome⟩

theorem C9_section_reopen_idempotent_witness :
    step 0 "<a>".data initSt
      = .ok ⟨entryOr initSt.sections (joinSlash ((splitOnChar '<' "a".data).map trim)) [],
             (splitOnChar '<' "a".data).map trim⟩ :=
  (C9_section_reopen_idempotent.1 0 "<a>".data initSt "a".data (by rfl)).1

/-- C10: parsing is deterministic — it is a pure function of the input
text, so equal inputs yield structurally equal results. -/
theorem C10_parse_deterministic :
    ∀ t₁ t₂ : String, t₁ = t₂ → parse t₁ = parse t₂ := by
  intro t₁ t₂ h
  rw [h]

theorem C10_parse_deterministic_witness :
    parse "<a>\nx == 1" = parse "<a>\nx == 1" :=
  C10_parse_deterministic "<a>\nx == 1" "<a>\nx == 1" rfl

end Thethac
